import Mathlib

/-!
Verification of the tree-tracking bot's event-log derivation and
interval-reconciliation engine.

Timestamps are modelled as integers (Unix seconds, UTC).  The per-guild
CSV files are modelled as in-memory lists of typed rows; a missing file is
`none`.  Pandas `NaN`/`NaT` cells (such as the undefined downtime of the
first row produced by `shift(1)`) are modelled with `Option`, and the
pandas rule that any comparison against `NaN` is `False` is made explicit
at each filter.
-/

namespace TreeBot

/-- One row of the per-guild watering CSV written by `TreeLoggingCog`
(columns `wet,dry`): `wet` is when the tree was watered, `dry` is when it
next needs watering. -/
structure WetDryRow where
  wet : Int
  dry : Int
deriving DecidableEq, Repr

/-- Embedding of `TreeLoggingCog.fetch_logs` on the parsed rows of an
existing CSV file: keep rows with `wet <= dry`, then keep rows overlapping
the query interval (`dry >= start and wet <= end`).  The trailing
`dropna()` is a no-op on fully-typed rows. -/
def fetch_logs_rows (rows : List WetDryRow) (start stop : Int) : List WetDryRow :=
  (rows.filter (fun r => decide (r.wet ≤ r.dry))).filter
    (fun r => decide (start ≤ r.dry) && decide (r.wet ≤ stop))

/-- Embedding of `TreeLoggingCog.fetch_logs` including the missing-file
branch: if the guild's log path does not exist the function returns
`None`. -/
def fetch_logs (file : Option (List WetDryRow)) (start stop : Int) :
    Option (List WetDryRow) :=
  file.map (fun rows => fetch_logs_rows rows start stop)

/-- A row of `calc_up_down`'s working dataframe after the `uptime` and
`downtime` columns have been added.  `downtime` is `none` for the first
row, where `df['dry'].shift(1)` is `NaT`. -/
structure CalcRow where
  wet : Int
  dry : Int
  uptime : Int
  downtime : Option Int
deriving DecidableEq, Repr

/-- Embedding of the clamping step of `TreeLoggingCog.calc_up_down`:
`df.loc[df['wet'] <= cutoff, 'wet'] = cutoff` and
`df.loc[df['dry'] >= now, 'dry'] = now`. -/
def clamp_rows (cutoff now : Int) (rows : List WetDryRow) : List WetDryRow :=
  rows.map (fun r =>
    ⟨if r.wet ≤ cutoff then cutoff else r.wet,
     if now ≤ r.dry then now else r.dry⟩)

/-- Embedding of the column computations of `TreeLoggingCog.calc_up_down`:
`uptime = dry - wet` and `downtime = wet - dry.shift(1)` (the gap since
the immediately preceding row of the dataframe; `none` for the first
row). -/
def with_up_down : Option Int → List WetDryRow → List CalcRow
  | _, [] => []
  | prevDry, r :: rs =>
      ⟨r.wet, r.dry, r.dry - r.wet, prevDry.map (fun pd => r.wet - pd)⟩ ::
        with_up_down (some r.dry) rs

/-- Embedding of the outlier mask of `TreeLoggingCog.calc_up_down`:
`df[(df['downtime'] < max_duration) & (df['uptime'] < max_duration)]`.
A `NaN` downtime compares as `False` in pandas, so a row with
`downtime = none` never passes the mask. -/
def outlier_row_ok (maxDuration : Int) (r : CalcRow) : Bool :=
  (match r.downtime with
   | some d => decide (d < maxDuration)
   | none => false) && decide (r.uptime < maxDuration)

/-- The rows of `calc_up_down`'s dataframe that survive the outlier
mask. -/
def calc_kept (rows : List WetDryRow) (cutoff now maxDuration : Int) :
    List CalcRow :=
  (with_up_down none (clamp_rows cutoff now rows)).filter
    (outlier_row_ok maxDuration)

/-- Embedding of `TreeLoggingCog.calc_up_down` on an already-fetched list
of rows: clamp, add the `uptime`/`downtime` columns, drop outlier rows,
sum both columns (the sum of an empty column is `0`), and if the
remaining dataframe is non-empty and its last `dry` precedes `now`, add
the unresolved tail `now - last_dry` to the downtime. -/
def calc_up_down_core (rows : List WetDryRow) (cutoff now maxDuration : Int) :
    Int × Int :=
  let kept := calc_kept rows cutoff now maxDuration
  let uptime := (kept.map (fun r => r.uptime)).sum
  let downtime := (kept.map (fun r => r.downtime.getD 0)).sum
  match kept.getLast? with
  | none => (uptime, downtime)
  | some lastRow =>
      if lastRow.dry < now then (uptime, downtime + (now - lastRow.dry))
      else (uptime, downtime)

/-- Embedding of `TreeLoggingCog.calc_up_down` for a guild, including the
call to `fetch_logs`.  When the guild's log file does not exist,
`fetch_logs` returns `None` and `calc_up_down` then evaluates
`df.loc[df['wet'] <= cutoff, 'wet']` on `None`, which raises; this is the
`Except.error` branch. -/
def calc_up_down (file : Option (List WetDryRow))
    (cutoff now maxDuration : Int) : Except String (Int × Int) :=
  match fetch_logs file cutoff now with
  | none => Except.error "TypeError: NoneType object is not subscriptable"
  | some rows => Except.ok (calc_up_down_core rows cutoff now maxDuration)

/-! `TreeLogFile` (utils/tree_logs.py): the per-entity `start,end,type`
event-log store.  A CSV row is an `EventRow`; the CSV `end` column is the
`stop` field. -/

/-- One row of a `TreeLogFile` CSV (columns `start,end,type`).  `stop`
embeds the `end` column; `type` is the category string (`"water"`,
`"insect"`, `"fruit"`). -/
structure EventRow where
  start : Int
  stop : Int
  type : String
deriving DecidableEq, Repr

/-- Code-point lexicographic comparison of strings (as their character
lists), the order Python/pandas uses to sort the `type` column. -/
def str_lt : List Char → List Char → Bool
  | [], [] => false
  | [], _ :: _ => true
  | _ :: _, [] => false
  | a :: as, b :: bs =>
      if a < b then true
      else if b < a then false
      else str_lt as bs

theorem str_lt_irrefl (l : List Char) : str_lt l l = false := by
  induction l with
  | nil => rfl
  | cons c cs ih => simp [str_lt, if_neg (lt_irrefl c), ih]

theorem str_lt_asymm {a b : List Char} (h : str_lt a b = true) :
    str_lt b a = false := by
  induction a generalizing b with
  | nil =>
      cases b with
      | nil => simp [str_lt] at h
      | cons d ds => simp [str_lt]
  | cons c cs ih =>
      cases b with
      | nil => simp [str_lt] at h
      | cons d ds =>
          simp only [str_lt] at h ⊢
          by_cases h1 : c < d
          · rw [if_neg (lt_asymm h1), if_pos h1]
          · by_cases h2 : d < c
            · rw [if_neg h1, if_pos h2] at h
              cases h
            · rw [if_neg h1, if_neg h2] at h
              rw [if_neg h2, if_neg h1]
              exact ih h

theorem str_lt_trans {a b c : List Char} (h1 : str_lt a b = true)
    (h2 : str_lt b c = true) : str_lt a c = true := by
  induction a generalizing b c with
  | nil =>
      cases c with
      | nil =>
          cases b with
          | nil => simp [str_lt] at h1
          | cons y ys => simp [str_lt] at h2
      | cons z zs => simp [str_lt]
  | cons x xs ih =>
      cases b with
      | nil => simp [str_lt] at h1
      | cons y ys =>
          cases c with
          | nil => simp [str_lt] at h2
          | cons z zs =>
              simp only [str_lt] at h1 h2 ⊢
              by_cases hxy : x < y
              · by_cases hyz : y < z
                · rw [if_pos (lt_trans hxy hyz)]
                · by_cases hzy : z < y
                  · rw [if_neg hyz, if_pos hzy] at h2
                    cases h2
                  · have hyz_eq : y = z := le_antisymm (not_lt.mp hzy) (not_lt.mp hyz)
                    subst hyz_eq
                    rw [if_pos hxy]
              · by_cases hyx : y < x
                · rw [if_neg hxy, if_pos hyx] at h1
                  cases h1
                · have hxy_eq : x = y := le_antisymm (not_lt.mp hyx) (not_lt.mp hxy)
                  subst hxy_eq
                  rw [if_neg hxy, if_neg hyx] at h1
                  by_cases hxz : x < z
                  · rw [if_pos hxz]
                  · by_cases hzx : z < x
                    · rw [if_neg hxz, if_pos hzx] at h2
                      cases h2
                    · have hxz_eq : x = z := le_antisymm (not_lt.mp hzx) (not_lt.mp hxz)
                      subst hxz_eq
                      rw [if_neg hxz, if_neg hzx] at h2 ⊢
                      exact ih h1 h2

theorem str_lt_eq_of_not {a b : List Char} (h1 : str_lt a b = false)
    (h2 : str_lt b a = false) : a = b := by
  induction a generalizing b with
  | nil =>
      cases b with
      | nil => rfl
      | cons d ds => simp [str_lt] at h1
  | cons x xs ih =>
      cases b with
      | nil => simp [str_lt] at h2
      | cons y ys =>
          simp only [str_lt] at h1 h2
          by_cases hxy : x < y
          · rw [if_pos hxy] at h1
            cases h1
          · by_cases hyx : y < x
            · rw [if_pos hyx] at h2
              cases h2
            · have hx : x = y := le_antisymm (not_lt.mp hyx) (not_lt.mp hxy)
              subst hx
              rw [if_neg hxy, if_neg hyx] at h1
              rw [if_neg hyx, if_neg hxy] at h2
              rw [ih h1 h2]

/-- Strings with equal character data are equal. -/
theorem string_eq_of_data {a b : String} (h : a.data = b.data) : a = b := by
  exact congrArg String.mk h

/-- Ordering used by `df.sort_values(by=['type', 'start'])`: code-point
lexicographic on the category string, then on the start time. -/
def rowLE (a b : EventRow) : Prop :=
  str_lt a.type.data b.type.data = true ∨ (a.type = b.type ∧ a.start ≤ b.start)

instance : DecidableRel rowLE := fun a b =>
  inferInstanceAs
    (Decidable (str_lt a.type.data b.type.data = true ∨
      (a.type = b.type ∧ a.start ≤ b.start)))

instance : IsTotal EventRow rowLE where
  total a b := by
    by_cases hab : str_lt a.type.data b.type.data = true
    · exact Or.inl (Or.inl hab)
    · by_cases hba : str_lt b.type.data a.type.data = true
      · exact Or.inr (Or.inl hba)
      · have he : a.type = b.type :=
          string_eq_of_data
            (str_lt_eq_of_not (Bool.not_eq_true _ ▸ hab) (Bool.not_eq_true _ ▸ hba))
        rcases le_total a.start b.start with hs | hs
        · exact Or.inl (Or.inr ⟨he, hs⟩)
        · exact Or.inr (Or.inr ⟨he.symm, hs⟩)

instance : IsTrans EventRow rowLE where
  trans a b c hab hbc := by
    rcases hab with h | ⟨he, hs⟩ <;> rcases hbc with h2 | ⟨he2, hs2⟩
    · exact Or.inl (str_lt_trans h h2)
    · exact Or.inl (he2 ▸ h)
    · exact Or.inl (he ▸ h2)
    · exact Or.inr ⟨he.trans he2, hs.trans hs2⟩

/-- Embedding of `TreeLogFile.read_log_chunked`: filter to the requested
categories when a filter is given (`chunk['type'].isin(filter_logs)`),
then keep the rows overlapping the window
(`(chunk['end'] >= start) & (chunk['start'] <= end)`).  Chunked reading
concatenated in file order is equivalent to filtering the whole list. -/
def read_log_chunked (rows : List EventRow) (start stop : Int)
    (filterLogs : Option (List String)) : List EventRow :=
  let catFiltered : List EventRow :=
    match filterLogs with
    | some cats => rows.filter (fun r => decide (r.type ∈ cats))
    | none => rows
  catFiltered.filter
    (fun r => decide (start ≤ r.stop) && decide (r.start ≤ stop))

/-- Scanning pass of `remove_overlaps` after its first row: keep a row
only if its `start` is at least the `end` of the last kept row, updating
the running `prev_end` on every kept row; kept rows get the group's name
written back into their `type` column. -/
def remove_overlaps_go (groupName : String) (prevEnd : Int) :
    List EventRow → List EventRow
  | [] => []
  | r :: rs =>
      if prevEnd ≤ r.start then
        { r with type := groupName } :: remove_overlaps_go groupName r.stop rs
      else
        remove_overlaps_go groupName prevEnd rs

/-- Embedding of `remove_overlaps` in `TreeLogFile.read_log`, applied by
`groupby('type').apply(..., include_groups=False)` to one category group:
the first row is always kept, later rows only when their `start` does not
precede the `end` of the last kept row; the result's `type` column is set
to `group.name`. -/
def remove_overlaps (groupName : String) : List EventRow → List EventRow
  | [] => []
  | g0 :: rest =>
      { g0 with type := groupName } :: remove_overlaps_go groupName g0.stop rest

/-- Ascending key order (code-point lexicographic `<=`) in which
`df.groupby('type')` iterates its distinct keys. -/
def key_le (a b : String) : Prop := str_lt b.data a.data = false

instance : DecidableRel key_le := fun a b =>
  inferInstanceAs (Decidable (str_lt b.data a.data = false))

instance : IsTotal String key_le where
  total a b := by
    unfold key_le
    by_cases h : str_lt a.data b.data = true
    · exact Or.inl (str_lt_asymm h)
    · exact Or.inr (Bool.not_eq_true _ ▸ h)

instance : IsTrans String key_le where
  trans a b c hab hbc := by
    unfold key_le at hab hbc ⊢
    by_cases hca : str_lt c.data a.data = true
    · by_cases hab2 : str_lt a.data b.data = true
      · rw [str_lt_trans hca hab2] at hbc
        cases hbc
      · have he : a.data = b.data :=
          str_lt_eq_of_not (Bool.not_eq_true _ ▸ hab2) hab
        rw [he] at hca
        rw [hca] at hbc
        cases hbc
    · exact Bool.not_eq_true _ ▸ hca

/-- The sorted distinct group keys over which `df.groupby('type')`
iterates. -/
def group_keys (rows : List EventRow) : List String :=
  List.insertionSort key_le (rows.map (fun r => r.type)).dedup

/-- Embedding of the assembly tail of `TreeLogFile.read_log` on the rows
delivered by `read_log_chunked`: drop rows with `start > end`, sort by
`(type, start)`, group by `type` and deduplicate overlaps per group, and
concatenate the groups in key order (`dropna` is a no-op on typed
rows). -/
def read_log_assemble (rows : List EventRow) : List EventRow :=
  let wf := rows.filter (fun r => decide (r.start ≤ r.stop))
  let sorted := List.insertionSort rowLE wf
  (group_keys sorted).flatMap
    (fun t => remove_overlaps t (sorted.filter (fun r => decide (r.type = t))))

/-- Embedding of `TreeLogFile.read_log`: `None` when the guild's log file
does not exist, otherwise the chunk-filtered, assembled rows. -/
def read_log (file : Option (List EventRow)) (start stop : Int)
    (filterLogs : Option (List String)) : Option (List EventRow) :=
  file.map (fun rows => read_log_assemble (read_log_chunked rows start stop filterLogs))

/-- Embedding of `TreeLogFile.append_log`: one row is appended at the end
of the guild's log. -/
def append_log (rows : List EventRow) (r : EventRow) : List EventRow :=
  rows ++ [r]

/-- Embedding of the accept/reject step of `TreeLoggingCog.log_tree`
(after a timestamp has been extracted): if the extracted timestamp is not
strictly later than both `edited_at` and the cached `next_water`, do
nothing; otherwise append `(wet = edited_at, dry = timestamp)` to the log
and set the cache to `timestamp`. -/
def log_tree_step (timestamp editedAt nextWater : Int)
    (log : List WetDryRow) : List WetDryRow × Int :=
  if timestamp ≤ editedAt ∨ timestamp ≤ nextWater then (log, nextWater)
  else (log ++ [⟨editedAt, timestamp⟩], timestamp)

/-! `TreeNotifCog` (cogs/treenotification.py): per-guild, per-category
notification state.  A cached notification handle is modelled by its
creation time; `none` is the "absent" state. -/

/-- A chat-platform message handle, reduced to the only field the cog
reads back (`created_at`). -/
structure NotifMsg where
  createdAt : Int
deriving DecidableEq, Repr

/-- The per-guild `self.notifications[str(guild_id)]` dictionary, which
`load_guild_notifications` initialises with exactly the keys `insect`,
`fruit` and `water`. -/
structure GuildNotifications where
  insect : Option NotifMsg
  fruit : Option NotifMsg
  water : Option NotifMsg
deriving DecidableEq, Repr

/-- Dictionary lookup `self.notifications[str(guild_id)][category]`: a
`KeyError` for any category other than the three initialised keys. -/
def notif_lookup (n : GuildNotifications) (category : String) :
    Except String (Option NotifMsg) :=
  if category = "insect" then Except.ok n.insect
  else if category = "fruit" then Except.ok n.fruit
  else if category = "water" then Except.ok n.water
  else Except.error "KeyError"

/-- Embedding of `TreeNotifCog.delete_notification`: if a notification
handle is cached, delete the platform message; the cache entry itself is
not modified.  Returns the (unchanged) cache entry and the number of
platform delete requests issued. -/
def delete_notification (cached : Option NotifMsg) : Option NotifMsg × Nat :=
  match cached with
  | some _ => (cached, 1)
  | none => (none, 0)

/-- Embedding of `TreeNotifCog.send_notification` for one
`(guild, category)` slot.  If a handle is already cached, nothing is
sent.  Otherwise the message is sent (`sendResult` is the handle returned
by `util_send_message_in_channel`, or `none` if delivery failed) and the
result is cached; when the `temporary` flag is configured,
`delete_notification` is then called on the new cache value.  Returns the
final cache value, the number of send requests and the number of delete
requests. -/
def send_notification (temporary : Bool) (cached : Option NotifMsg)
    (sendResult : Option NotifMsg) : Option NotifMsg × Nat × Nat :=
  match cached with
  | some _ => (cached, 0, 0)
  | none =>
      let cached1 := sendResult
      if temporary then
        let deleted := delete_notification cached1
        (deleted.1, 1, deleted.2)
      else (cached1, 1, 0)

/-- Embedding of `TreeNotifCog.log_button_notification`: the `water`
category is rejected with an explicit `KeyError` before any state is
read; for other categories, if a handle is cached, append
`(start = created_at, end = now, type = category)` to the guild's event
log, else do nothing. -/
def log_button_notification (n : GuildNotifications) (category : String)
    (now : Int) (log : List EventRow) : Except String (List EventRow) :=
  if category = "water" then
    Except.error "KeyError: Watering logs should not be handled by this function"
  else
    match notif_lookup n category with
    | Except.error e => Except.error e
    | Except.ok none => Except.ok log
    | Except.ok (some m) =>
        Except.ok (append_log log ⟨m.createdAt, now, category⟩)

/-! `PATTERN_TIMESTAMP` (utils/constants.py): the regular expression
`(?<=<t:)(\d+)(?=:?[a-zA-Z]?>)` used by `TreeLoggingCog.log_tree` via
`re.search`, which returns the leftmost match.  A match of this pattern
is a maximal digit run immediately preceded by the three characters
`<t:` and followed by an optional `:`, an optional ASCII letter and a
mandatory `>` (backtracking into the digit run never helps, because the
character after a shortened run would be a digit, which none of the
lookahead alternatives accepts).  `re.search` therefore returns the digit
value of the first position at which `<t:` starts such a match. -/

/-- Numeric value of a digit run, as computed by Python's `int` on the
matched group. -/
def digits_val (ds : List Char) : Nat :=
  ds.foldl (fun acc c => 10 * acc + (c.toNat - '0'.toNat)) 0

/-- The lookahead `(?=:?[a-zA-Z]?>)` of `PATTERN_TIMESTAMP`, tested at
the position just after the digit run. -/
def lookahead_ok : List Char → Bool
  | [] => false
  | a :: rest =>
      if a = '>' then true
      else if a = ':' then
        match rest with
        | [] => false
        | b :: rest2 =>
            if b = '>' then true
            else
              b.isAlpha &&
                (match rest2 with
                 | c :: _ => decide (c = '>')
                 | [] => false)
      else
        a.isAlpha &&
          (match rest with
           | b :: _ => decide (b = '>')
           | [] => false)

/-- Value of a `PATTERN_TIMESTAMP` match whose lookbehind `<t:` starts at
the head of `l`: the digit run after `<t:` must be non-empty and the
lookahead must accept the remainder. -/
def relaxed_marker_val (l : List Char) : Option Nat :=
  match l with
  | a :: b :: c :: rest =>
      if a = '<' ∧ b = 't' ∧ c = ':' then
        if rest.takeWhile Char.isDigit ≠ [] ∧
            lookahead_ok (rest.dropWhile Char.isDigit) then
          some (digits_val (rest.takeWhile Char.isDigit))
        else none
      else none
  | _ => none

/-- Embedding of `re.search(PATTERN_TIMESTAMP, text)` followed by
`int(match.group())`: scan the suffixes of the text left to right and
return the value of the first one starting a match, or `none` when the
pattern does not occur (`re.search` returns `None`). -/
def pattern_timestamp_search : List Char → Option Nat
  | [] => none
  | c :: rest =>
      match relaxed_marker_val (c :: rest) with
      | some v => some v
      | none => pattern_timestamp_search rest

/-- Embedding of `TreeLoggingCog.log_tree` on the embed text: if the text
contains "ready to be watered" (case-insensitively) or no timestamp
pattern is found, nothing happens; otherwise the accept/reject step
`log_tree_step` runs on the extracted timestamp. -/
def log_tree (embedText : List Char) (editedAt nextWater : Int)
    (log : List WetDryRow) : List WetDryRow × Int :=
  if "ready to be watered".toList <:+: embedText.map Char.toLower then
    (log, nextWater)
  else
    match pattern_timestamp_search embedText with
    | none => (log, nextWater)
    | some ts => log_tree_step (Int.ofNat ts) editedAt nextWater log

/-! Claim-side marker grammar for C8: the spec describes the marker as
`<t:<digits>[:<flag>]>`, in which the colon and the flag letter are
optional only together.  The source regex instead makes them optional
independently. -/

/-- Claim-side check of what may follow the digits of a marker
`<t:<digits>[:<flag>]>`: either `>` immediately, or `:`, one flag letter
and `>`. -/
def grammar_after : List Char → Bool
  | [] => false
  | a :: rest =>
      if a = '>' then true
      else if a = ':' then
        match rest with
        | [] => false
        | b :: rest2 =>
            b.isAlpha &&
              (match rest2 with
               | c :: _ => decide (c = '>')
               | [] => false)
      else false

/-- Claim-side value of a marker `<t:<digits>[:<flag>]>` starting at the
head of `l`. -/
def grammar_marker_val (l : List Char) : Option Nat :=
  match l with
  | a :: b :: c :: rest =>
      if a = '<' ∧ b = 't' ∧ c = ':' then
        if rest.takeWhile Char.isDigit ≠ [] ∧
            grammar_after (rest.dropWhile Char.isDigit) then
          some (digits_val (rest.takeWhile Char.isDigit))
        else none
      else none
  | _ => none

/-- Claim-side extractor: the value of the first (left-to-right) marker
of the form `<t:<digits>[:<flag>]>`, or `none`. -/
def first_grammar_marker : List Char → Option Nat
  | [] => none
  | c :: rest =>
      match grammar_marker_val (c :: rest) with
      | some v => some v
      | none => first_grammar_marker rest

/-! Claim-side aggregation semantics (for the refinement comparison of
C4) and the direct characterization of the code's aggregation. -/

/-- Claim-side aggregation for C4, following the claim's words and not
the source: an outlier row (uptime or gap at or above the threshold) is
discarded and excluded from the gap computation of its neighbours, so the
next row's gap is measured against the end of the previous *remaining*
row; the first event of the slice has an undefined gap, is dropped only
from the downtime sum, and its uptime still contributes when below the
threshold. -/
def claim4_outlier_calc_go (th : Int) : Option Int → List WetDryRow → Int × Int
  | _, [] => (0, 0)
  | prevEnd, r :: rs =>
      let up := r.dry - r.wet
      match prevEnd with
      | none =>
          if up < th then
            let rest := claim4_outlier_calc_go th (some r.dry) rs
            (up + rest.1, rest.2)
          else claim4_outlier_calc_go th none rs
      | some pe =>
          let gap := r.wet - pe
          if up < th ∧ gap < th then
            let rest := claim4_outlier_calc_go th (some r.dry) rs
            (up + rest.1, gap + rest.2)
          else claim4_outlier_calc_go th prevEnd rs

/-- Claim-side aggregation for C4 over a clamped slice, including the
spec's trailing-downtime step on the last event of the slice. -/
def claim4_outlier_calc (rows : List WetDryRow) (cutoff now th : Int) :
    Int × Int :=
  let clamped := clamp_rows cutoff now rows
  let sums := claim4_outlier_calc_go th none clamped
  match clamped.getLast? with
  | none => sums
  | some lastRow =>
      if lastRow.dry < now then (sums.1, sums.2 + (now - lastRow.dry))
      else sums

/-- Direct recursion computing the code's outlier-filtered column sums:
every row's gap is measured against the `dry` of its immediate
predecessor in the slice — whether or not that predecessor was itself
discarded as an outlier — and a row contributes to both sums exactly when
its uptime and its gap are both below the threshold. -/
def calc_direct_go (th prevDry : Int) : List WetDryRow → Int × Int
  | [] => (0, 0)
  | r :: rs =>
      let up := r.dry - r.wet
      let gap := r.wet - prevDry
      let rest := calc_direct_go th r.dry rs
      if up < th ∧ gap < th then (up + rest.1, gap + rest.2) else rest

/-- The code's outlier-filtered column sums over a clamped slice: the
first row is dropped entirely (its `NaN` gap fails the outlier mask) and
only serves as the gap base of the second row. -/
def calc_direct (rows : List WetDryRow) (cutoff now th : Int) : Int × Int :=
  match clamp_rows cutoff now rows with
  | [] => (0, 0)
  | r0 :: rs => calc_direct_go th r0.dry rs

/-! Claim theorems. -/

/-- On non-first rows the pipeline (gap column, outlier mask, column
sums) agrees with the direct recursion `calc_direct_go`. -/
theorem calc_kept_go_sums (th : Int) (l : List WetDryRow) (pd : Int) :
    (((with_up_down (some pd) l).filter (outlier_row_ok th)).map
        (fun r => r.uptime)).sum = (calc_direct_go th pd l).1 ∧
    (((with_up_down (some pd) l).filter (outlier_row_ok th)).map
        (fun r => r.downtime.getD 0)).sum = (calc_direct_go th pd l).2 := by
  induction l generalizing pd with
  | nil => simp [with_up_down, calc_direct_go]
  | cons r rs ih =>
      simp only [with_up_down, calc_direct_go]
      by_cases hcond : r.dry - r.wet < th ∧ r.wet - pd < th
      · have hok : outlier_row_ok th ⟨r.wet, r.dry, r.dry - r.wet, some (r.wet - pd)⟩ = true := by
          simp [outlier_row_ok, hcond.1, hcond.2]
        simp [List.filter_cons, hok, hcond, (ih r.dry).1, (ih r.dry).2]
      · have hok : outlier_row_ok th ⟨r.wet, r.dry, r.dry - r.wet, some (r.wet - pd)⟩ = false := by
          simp only [outlier_row_ok, Bool.and_eq_false_iff]
          rcases not_and_or.mp hcond with h | h
          · exact Or.inr (by simpa using h)
          · exact Or.inl (by simpa using h)
        simp [List.filter_cons, hok, hcond, (ih r.dry).1, (ih r.dry).2]

/-- C4 counterexample: on the single-event slice `(0, 10)` over the
window `[0, 10]` with threshold `100`, the code returns `(0, 0)` — the
first row's undefined gap fails the outlier mask, so its uptime is
dropped too — while the claim's semantics (first event's uptime
contributes when below the threshold) gives `(10, 0)`. -/
theorem claim4_counterexample :
    calc_up_down_core [⟨0, 10⟩] 0 10 100 = (0, 0) ∧
      claim4_outlier_calc [⟨0, 10⟩] 0 10 100 = (10, 0) ∧
      ((0, 0) : Int × Int) ≠ (10, 0) :=
  ⟨rfl, rfl, by decide⟩

/-- C4 amended: a row with uptime or gap at or above the threshold
contributes zero to both sums, but the gap of the following row is still
measured against that discarded row's end — gaps are computed with
`shift(1)` against the immediate predecessor before the outlier mask is
applied — and the first event of the slice is dropped from both sums (its
`NaN` gap fails the mask, so its uptime never contributes; every
surviving row has a defined gap). -/
theorem claim4_amended (rows : List WetDryRow) (cutoff now th : Int) :
    ((calc_kept rows cutoff now th).map (fun r => r.uptime)).sum =
        (calc_direct rows cutoff now th).1 ∧
    ((calc_kept rows cutoff now th).map (fun r => r.downtime.getD 0)).sum =
        (calc_direct rows cutoff now th).2 ∧
    ∀ r ∈ calc_kept rows cutoff now th, r.downtime ≠ none := by
  refine ⟨?_, ?_, ?_⟩
  · unfold calc_kept calc_direct
    cases h : clamp_rows cutoff now rows with
    | nil => simp [with_up_down]
    | cons r0 rs =>
        have hok : outlier_row_ok th ⟨r0.wet, r0.dry, r0.dry - r0.wet, none⟩ = false := by
          simp [outlier_row_ok]
        simp [with_up_down, List.filter_cons, hok, (calc_kept_go_sums th rs r0.dry).1]
  · unfold calc_kept calc_direct
    cases h : clamp_rows cutoff now rows with
    | nil => simp [with_up_down]
    | cons r0 rs =>
        have hok : outlier_row_ok th ⟨r0.wet, r0.dry, r0.dry - r0.wet, none⟩ = false := by
          simp [outlier_row_ok]
        simp [with_up_down, List.filter_cons, hok, (calc_kept_go_sums th rs r0.dry).2]
  · intro r hr
    have hok : outlier_row_ok th r = true := List.of_mem_filter hr
    intro hnone
    rw [outlier_row_ok, hnone] at hok
    simp at hok

/-- C1 counterexample: on an empty filtered slice over the window
`[0, 3600]`, `calc_up_down` returns `(0, 0)` — both column sums are `0`
and the tail adjustment is skipped on an empty dataframe — not
`(0, 3600)` as the claim states. -/
theorem claim1_counterexample :
    calc_up_down_core [] 0 3600 1000 = (0, 0) ∧
      ((0, 0) : Int × Int) ≠ (0, 3600) :=
  ⟨rfl, by decide⟩

/-- C1 amended: when the slice is empty after outlier filtering,
`calc_up_down` returns uptime `0` and downtime `0` (not the window
length): the sums of the empty columns are `0` and the trailing-downtime
adjustment only runs on a non-empty dataframe. -/
theorem claim1_amended (rows : List WetDryRow) (cutoff now maxDuration : Int)
    (h : calc_kept rows cutoff now maxDuration = []) :
    calc_up_down_core rows cutoff now maxDuration = (0, 0) := by
  simp [calc_up_down_core, h]

/-- C1 amended, witness at the empty log over the window `[0, 3600]`. -/
theorem claim1_amended_witness :
    calc_kept [] 0 3600 1000 = [] ∧ calc_up_down_core [] 0 3600 1000 = (0, 0) :=
  ⟨rfl, claim1_amended [] 0 3600 1000 rfl⟩

/-- C2 counterexample: with cached `next_water = T0 = 0`, an accepted
signal `edited_at = T0+400`, `timestamp = T0+500` appends the event
`(wet = 400, dry = 500)`; the claim predicts a clamped start of
`T0+200 = 500 - 300`, but no last-duration clamp exists in `log_tree`. -/
theorem claim2_counterexample :
    log_tree_step 500 400 0 [] = ([⟨400, 500⟩], 500) ∧
      (⟨400, 500⟩ : WetDryRow) ≠ ⟨200, 500⟩ :=
  ⟨by decide, by decide⟩

/-- C2 amended: for every accepted signal (`end_candidate` strictly later
than both `signal_time` and the cached next time), the appended event's
start is always `signal_time` — the code keeps no last-duration floor and
never clamps — and the cache becomes `end_candidate`. -/
theorem claim2_amended (timestamp editedAt nextWater : Int)
    (log : List WetDryRow) (h1 : editedAt < timestamp)
    (h2 : nextWater < timestamp) :
    log_tree_step timestamp editedAt nextWater log =
      (log ++ [⟨editedAt, timestamp⟩], timestamp) := by
  unfold log_tree_step
  rw [if_neg]
  push_neg
  exact ⟨h1, h2⟩

/-- C2 amended, witness on the claim's own scenario (`T0 = 0`). -/
theorem claim2_amended_witness :
    (400 : Int) < 500 ∧ (0 : Int) < 500 ∧
      log_tree_step 500 400 0 [] = ([⟨400, 500⟩], 500) :=
  ⟨by decide, by decide, claim2_amended 500 400 0 [] (by decide) (by decide)⟩

/-- C3 counterexample: with `temporary = true`, condition true and state
absent, a successful evaluation sends one notification and issues one
delete, but the final cached state still holds the handle — it is not
"absent" as the claim states, because `delete_notification` never clears
the cache entry. -/
theorem claim3_counterexample :
    send_notification true none (some ⟨0⟩) = (some ⟨0⟩, 1, 1) ∧
      (some (⟨0⟩ : NotifMsg)) ≠ none :=
  ⟨rfl, by decide⟩

/-- C3 amended: with the temporary flag configured true, condition true
and state absent, a successful evaluation sends exactly one notification
and immediately deletes the platform message, but the cached state keeps
the handle (state ends "present"); any further evaluation while the
handle is cached sends nothing, so exactly one send is observed per
episode.  The state returns to absent only when the caller clears it
after the condition goes false. -/
theorem claim3_amended (m : NotifMsg) :
    send_notification true none (some m) = (some m, 1, 1) ∧
      ∀ fresh : Option NotifMsg,
        send_notification true (some m) fresh = (some m, 0, 0) :=
  ⟨rfl, fun _ => rfl⟩

/-- C6: stale or duplicate signals are rejected as a strict no-op: when
the end candidate is not strictly later than the signal time, or not
strictly later than the cached next-water time, nothing is appended to
the log and the cache is unchanged. -/
theorem claim6_reject_noop (timestamp editedAt nextWater : Int)
    (log : List WetDryRow)
    (h : timestamp ≤ editedAt ∨ timestamp ≤ nextWater) :
    log_tree_step timestamp editedAt nextWater log = (log, nextWater) := by
  unfold log_tree_step
  exact if_pos h

/-- C6 witness: a replayed candidate equal to the cached next-water time
(h: `500 ≤ 500`) leaves log and cache untouched. -/
theorem claim6_reject_noop_witness :
    ((500 : Int) ≤ 400 ∨ (500 : Int) ≤ 500) ∧
      log_tree_step 500 400 500 [⟨0, 300⟩] = ([⟨0, 300⟩], 500) :=
  ⟨Or.inr (by decide),
    claim6_reject_noop 500 400 500 [⟨0, 300⟩] (Or.inr (by decide))⟩

/-- C9: when the guild's log file does not exist, `fetch_logs` returns
`None` and `calc_up_down` then subscripts `None`, raising instead of
completing with a defined result: the run is an error for every window
and threshold. -/
theorem claim9_missing_file_raises (cutoff now maxDuration : Int) :
    calc_up_down none cutoff now maxDuration =
      Except.error "TypeError: NoneType object is not subscriptable" :=
  rfl

/-- C10: `log_button_notification` with category `water` always raises
`KeyError` regardless of the notification state; for any other category,
when the call returns normally, either no handle was cached and the log
is unchanged, or a handle was cached and exactly the event
`(start = handle.created_at, end = now, type = category)` was appended. -/
theorem claim10_log_button (n : GuildNotifications) (category : String)
    (now : Int) (log : List EventRow) :
    log_button_notification n "water" now log =
      Except.error "KeyError: Watering logs should not be handled by this function" ∧
    (category ≠ "water" →
      ∀ log2, log_button_notification n category now log = Except.ok log2 →
        (notif_lookup n category = Except.ok none ∧ log2 = log) ∨
        ∃ m, notif_lookup n category = Except.ok (some m) ∧
          log2 = append_log log ⟨m.createdAt, now, category⟩) := by
  constructor
  · simp [log_button_notification]
  · intro hcat log2 hres
    unfold log_button_notification at hres
    rw [if_neg hcat] at hres
    cases hlk : notif_lookup n category with
    | error e => rw [hlk] at hres; cases hres
    | ok o =>
        cases o with
        | none =>
            rw [hlk] at hres
            exact Or.inl ⟨rfl, (Except.ok.injEq _ _ ▸ hres).symm⟩
        | some m =>
            rw [hlk] at hres
            refine Or.inr ⟨m, rfl, ?_⟩
            cases hres
            rfl

/-- C10 witness: with an insect handle created at time `3` cached,
logging at time `7` appends `(3, 7, insect)`; the `water` category
errors. -/
theorem claim10_log_button_witness :
    log_button_notification ⟨some ⟨3⟩, none, none⟩ "water" 7 [] =
      Except.error "KeyError: Watering logs should not be handled by this function" ∧
    ((notif_lookup ⟨some ⟨3⟩, none, none⟩ "insect" = Except.ok none ∧
        ([⟨3, 7, "insect"⟩] : List EventRow) = []) ∨
      ∃ m, notif_lookup ⟨some ⟨3⟩, none, none⟩ "insect" = Except.ok (some m) ∧
        [⟨3, 7, "insect"⟩] = append_log [] ⟨m.createdAt, 7, "insect"⟩) :=
  ⟨(claim10_log_button ⟨some ⟨3⟩, none, none⟩ "insect" 7 []).1,
    (claim10_log_button ⟨some ⟨3⟩, none, none⟩ "insect" 7 []).2 (by decide)
      [⟨3, 7, "insect"⟩] rfl⟩

/-- Anything the claim's marker grammar allows after the digits is also
accepted by the regex lookahead `(?=:?[a-zA-Z]?>)`. -/
theorem grammar_after_relaxed (l : List Char) (h : grammar_after l = true) :
    lookahead_ok l = true := by
  cases l with
  | nil => simp [grammar_after] at h
  | cons a rest =>
      cases rest with
      | nil =>
          simp only [grammar_after] at h
          simp only [lookahead_ok]
          split_ifs at h ⊢
          simp_all
      | cons b rest2 =>
          simp only [grammar_after] at h
          simp only [lookahead_ok]
          split_ifs at h ⊢ <;> simp_all

/-- Every marker of the claimed form `<t:<digits>[:<flag>]>` is a match
of the source regex, with the same enclosed integer. -/
theorem grammar_marker_relaxed (l : List Char) (v : Nat)
    (h : grammar_marker_val l = some v) : relaxed_marker_val l = some v := by
  match l with
  | [] => simp [grammar_marker_val] at h
  | [a] => simp [grammar_marker_val] at h
  | [a, b] => simp [grammar_marker_val] at h
  | a :: b :: c :: rest =>
      simp only [grammar_marker_val] at h
      simp only [relaxed_marker_val]
      by_cases habc : a = '<' ∧ b = 't' ∧ c = ':'
      · rw [if_pos habc] at h
        rw [if_pos habc]
        by_cases hds : rest.takeWhile Char.isDigit ≠ [] ∧
            grammar_after (rest.dropWhile Char.isDigit) = true
        · rw [if_pos hds] at h
          rw [if_pos ⟨hds.1, grammar_after_relaxed _ hds.2⟩]
          exact h
        · rw [if_neg hds] at h
          cases h
      · rw [if_neg habc] at h
        cases h

/-- On a text whose regex matches are all grammar-form markers, the
extractor agrees with the claim-side extractor. -/
theorem search_agrees_on_grammar (s : List Char)
    (h : ∀ l ∈ s.tails, relaxed_marker_val l = grammar_marker_val l) :
    pattern_timestamp_search s = first_grammar_marker s := by
  induction s with
  | nil => rfl
  | cons c rest ih =>
      have h0 : relaxed_marker_val (c :: rest) = grammar_marker_val (c :: rest) :=
        h _ ((List.mem_tails _ _).mpr (List.suffix_refl _))
      unfold pattern_timestamp_search first_grammar_marker
      rw [h0]
      cases grammar_marker_val (c :: rest) with
      | some v => rfl
      | none =>
          exact ih (fun l hl =>
            h l ((List.mem_tails _ _).mpr (((List.mem_tails _ _).mp hl).trans (List.suffix_cons c rest))))

/-- The extractor reports absence (`none`) exactly when no suffix of the
text starts a regex match. -/
theorem search_none_iff (s : List Char) :
    pattern_timestamp_search s = none ↔
      ∀ l ∈ s.tails, relaxed_marker_val l = none := by
  induction s with
  | nil => simp [pattern_timestamp_search, relaxed_marker_val]
  | cons c rest ih =>
      unfold pattern_timestamp_search
      constructor
      · intro h l hl
        rcases (List.mem_tails _ _).mp hl with ⟨pre, hpre⟩
        cases hv : relaxed_marker_val (c :: rest) with
        | some v => rw [hv] at h; cases h
        | none =>
            rw [hv] at h
            cases pre with
            | nil => simpa [← hpre] using hv
            | cons p ps =>
                have : l ∈ rest.tails := by
                  apply (List.mem_tails _ _).mpr
                  have : ps ++ l = rest := by
                    have := hpre
                    simp only [List.cons_append] at this
                    exact (List.cons.injEq _ _ _ _ ▸ this).2
                  exact ⟨ps, this⟩
                exact ih.mp h l this
      · intro h
        have h0 : relaxed_marker_val (c :: rest) = none :=
          h _ ((List.mem_tails _ _).mpr (List.suffix_refl _))
        rw [h0]
        exact ih.mpr (fun l hl =>
          h l ((List.mem_tails _ _).mpr (((List.mem_tails _ _).mp hl).trans (List.suffix_cons c rest))))

/-- C8 counterexample: `"<t:5R>"` contains no marker of the claimed form
`<t:<digits>[:<flag>]>` (the flag letter appears without its colon), yet
the extractor returns `5`, because the regex lookahead `:?[a-zA-Z]?>`
makes the colon and the flag optional independently.  The claim's
"returns the enclosed integer of the first marker matching
`<t:<digits>[:<flag>]>` ... absence of a match is signaled distinctly" is
therefore false for this input. -/
theorem claim8_counterexample :
    pattern_timestamp_search ['<', 't', ':', '5', 'R', '>'] = some 5 ∧
      first_grammar_marker ['<', 't', ':', '5', 'R', '>'] = none ∧
      ∀ l ∈ (['<', 't', ':', '5', 'R', '>'] : List Char).tails,
        grammar_marker_val l = none := by
  refine ⟨rfl, rfl, ?_⟩
  decide

/-- C8 amended: the extractor is total and returns the enclosed integer
of the first (left-to-right) match of the source regex
`(?<=<t:)(\d+)(?=:?[a-zA-Z]?>)`, whose lookahead accepts every claimed
marker `<t:<digits>[:<flag>]>` but also a colon or flag letter on its
own; on any text whose regex matches are all grammar-form markers it
returns the first such marker's integer, and it reports absence as
`none` — distinct by construction from `some 0` — exactly when no suffix
starts a regex match. -/
theorem claim8_amended (s : List Char) :
    (∀ l v, grammar_marker_val l = some v → relaxed_marker_val l = some v) ∧
    ((∀ l ∈ s.tails, relaxed_marker_val l = grammar_marker_val l) →
      pattern_timestamp_search s = first_grammar_marker s) ∧
    (pattern_timestamp_search s = none ↔
      ∀ l ∈ s.tails, relaxed_marker_val l = none) :=
  ⟨grammar_marker_relaxed, search_agrees_on_grammar s, search_none_iff s⟩

/-- C8 amended, witness: on `"<t:9>"` every regex match is a grammar
marker, the extractor returns `9` and agrees with the claim-side
extractor; subsumption is instantiated on the same marker. -/
theorem claim8_amended_witness :
    relaxed_marker_val ['<', 't', ':', '9', '>'] = some 9 ∧
      pattern_timestamp_search ['<', 't', ':', '9', '>'] =
        first_grammar_marker ['<', 't', ':', '9', '>'] ∧
      (pattern_timestamp_search ['x'] = none ↔
        ∀ l ∈ (['x'] : List Char).tails, relaxed_marker_val l = none) :=
  ⟨(claim8_amended ['<', 't', ':', '9', '>']).1 ['<', 't', ':', '9', '>'] 9 (by decide),
    (claim8_amended ['<', 't', ':', '9', '>']).2.1 (by decide),
    (claim8_amended ['x']).2.2⟩

/-! Helper lemmas about `remove_overlaps` and the grouped assembly. -/

/-- Rows produced by the scanning pass carry the group name. -/
theorem remove_overlaps_go_type (t : String) (pe : Int) (l : List EventRow) :
    ∀ r ∈ remove_overlaps_go t pe l, r.type = t := by
  induction l generalizing pe with
  | nil => intro r hr; simp [remove_overlaps_go] at hr
  | cons x xs ih =>
      intro r hr
      simp only [remove_overlaps_go] at hr
      by_cases h : pe ≤ x.start
      · rw [if_pos h] at hr
        rcases List.mem_cons.mp hr with he | hm
        · rw [he]
        · exact ih x.stop r hm
      · rw [if_neg h] at hr
        exact ih pe r hr

/-- Rows produced by `remove_overlaps` carry the group name. -/
theorem remove_overlaps_type (t : String) (g : List EventRow) :
    ∀ r ∈ remove_overlaps t g, r.type = t := by
  cases g with
  | nil => intro r hr; simp [remove_overlaps] at hr
  | cons g0 rest =>
      intro r hr
      rcases List.mem_cons.mp hr with he | hm
      · rw [he]
      · exact remove_overlaps_go_type t g0.stop rest r hm

/-- The scanning pass selects a subsequence of the group (with the
group name written into the `type` column). -/
theorem remove_overlaps_go_sublist (t : String) (pe : Int) (l : List EventRow) :
    List.Sublist (remove_overlaps_go t pe l)
      (l.map (fun r => { r with type := t })) := by
  induction l generalizing pe with
  | nil => simp [remove_overlaps_go]
  | cons x xs ih =>
      simp only [remove_overlaps_go, List.map_cons]
      by_cases h : pe ≤ x.start
      · rw [if_pos h]
        exact (ih x.stop).cons₂ _
      · rw [if_neg h]
        exact (ih pe).cons _

/-- `remove_overlaps` selects a subsequence of the group (with the group
name written into the `type` column). -/
theorem remove_overlaps_sublist (t : String) (g : List EventRow) :
    List.Sublist (remove_overlaps t g)
      (g.map (fun r => { r with type := t })) := by
  cases g with
  | nil => simp [remove_overlaps]
  | cons g0 rest =>
      simp only [remove_overlaps, List.map_cons]
      exact (remove_overlaps_go_sublist t g0.stop rest).cons₂ _

/-- Every row kept by the scanning pass starts no earlier than the
running `prev_end`, provided the group rows are well-formed. -/
theorem remove_overlaps_go_start_ge (t : String) (pe : Int) (l : List EventRow)
    (hwf : ∀ r ∈ l, r.start ≤ r.stop) :
    ∀ r ∈ remove_overlaps_go t pe l, pe ≤ r.start := by
  induction l generalizing pe with
  | nil => intro r hr; simp [remove_overlaps_go] at hr
  | cons x xs ih =>
      intro r hr
      simp only [remove_overlaps_go] at hr
      by_cases h : pe ≤ x.start
      · rw [if_pos h] at hr
        rcases List.mem_cons.mp hr with he | hm
        · rw [he]; exact h
        · calc pe ≤ x.start := h
            _ ≤ x.stop := hwf x (List.mem_cons_self _ _)
            _ ≤ r.start :=
              ih x.stop (fun y hy => hwf y (List.mem_cons_of_mem _ hy)) r hm
      · rw [if_neg h] at hr
        exact ih pe (fun y hy => hwf y (List.mem_cons_of_mem _ hy)) r hr

/-- The scanning pass output has no same-group overlap: each kept row
ends no later than any later kept row starts. -/
theorem remove_overlaps_go_gap (t : String) (pe : Int) (l : List EventRow)
    (hwf : ∀ r ∈ l, r.start ≤ r.stop) :
    (remove_overlaps_go t pe l).Pairwise (fun a b => a.stop ≤ b.start) := by
  induction l generalizing pe with
  | nil => simp [remove_overlaps_go]
  | cons x xs ih =>
      simp only [remove_overlaps_go]
      by_cases h : pe ≤ x.start
      · rw [if_pos h]
        refine List.pairwise_cons.mpr ⟨?_, ih x.stop (fun y hy => hwf y (List.mem_cons_of_mem _ hy))⟩
        intro b hb
        exact remove_overlaps_go_start_ge t x.stop xs
          (fun y hy => hwf y (List.mem_cons_of_mem _ hy)) b hb
      · rw [if_neg h]
        exact ih pe (fun y hy => hwf y (List.mem_cons_of_mem _ hy))

/-- The deduplicated group has no overlap: scanning order pairs satisfy
`earlier.end <= later.start`. -/
theorem remove_overlaps_gap (t : String) (g : List EventRow)
    (hwf : ∀ r ∈ g, r.start ≤ r.stop) :
    (remove_overlaps t g).Pairwise (fun a b => a.stop ≤ b.start) := by
  cases g with
  | nil => simp [remove_overlaps]
  | cons g0 rest =>
      refine List.pairwise_cons.mpr
        ⟨?_, remove_overlaps_go_gap t g0.stop rest
          (fun y hy => hwf y (List.mem_cons_of_mem _ hy))⟩
      intro b hb
      exact remove_overlaps_go_start_ge t g0.stop rest
        (fun y hy => hwf y (List.mem_cons_of_mem _ hy)) b hb

/-- Deduplication preserves the start-ordering of a group. -/
theorem remove_overlaps_start_sorted (t : String) (g : List EventRow)
    (hsort : g.Pairwise (fun a b => a.start ≤ b.start)) :
    (remove_overlaps t g).Pairwise (fun a b => a.start ≤ b.start) := by
  refine List.Pairwise.sublist (remove_overlaps_sublist t g) ?_
  exact List.pairwise_map.mpr (hsort.imp (fun h => h))

/-- Concatenating per-key chunks whose rows carry their key, in strictly
increasing key order, yields a pairwise-related list for any relation
that holds across increasing keys. -/
theorem pairwise_flatMap_chunks (R : EventRow → EventRow → Prop)
    (keys : List String) (f : String → List EventRow)
    (htype : ∀ k, ∀ r ∈ f k, r.type = k)
    (hkeys : keys.Pairwise (fun a b => str_lt a.data b.data = true))
    (hchunk : ∀ k, (f k).Pairwise R)
    (hcross : ∀ a b : EventRow, str_lt a.type.data b.type.data = true → R a b) :
    (keys.flatMap f).Pairwise R := by
  induction keys with
  | nil => simp
  | cons k ks ih =>
      rw [List.flatMap_cons]
      rcases List.pairwise_cons.mp hkeys with ⟨hk, hks⟩
      refine List.pairwise_append.mpr ⟨hchunk k, ih hks, ?_⟩
      intro a ha b hb
      rcases List.mem_flatMap.mp hb with ⟨k2, hk2, hbf⟩
      refine hcross a b ?_
      rw [htype k a ha, htype k2 b hbf]
      exact hk k2 hk2

/-- Filtering distributes over the per-key concatenation. -/
theorem filter_flatMap_chunks (keys : List String)
    (f : String → List EventRow) (p : EventRow → Bool) :
    (keys.flatMap f).filter p = keys.flatMap (fun k => (f k).filter p) := by
  induction keys with
  | nil => rfl
  | cons k ks ih => simp [List.flatMap_cons, ih]

/-- With distinct keys, a per-key concatenation in which every key other
than `t` contributes nothing reduces to the chunk of `t`. -/
theorem flatMap_single_key (t : String) (keys : List String)
    (g : String → List EventRow) (hn : keys.Nodup)
    (h0 : ∀ k ∈ keys, k ≠ t → g k = []) :
    keys.flatMap g = if t ∈ keys then g t else [] := by
  induction keys with
  | nil => rfl
  | cons k ks ih =>
      rw [List.flatMap_cons]
      rcases List.nodup_cons.mp hn with ⟨hk, hks⟩
      by_cases hkt : k = t
      · subst hkt
        have hnil : ks.flatMap g = [] := by
          rw [List.flatMap_eq_nil_iff]
          intro k2 hk2
          exact h0 k2 (List.mem_cons_of_mem _ hk2) (fun he => hk (he ▸ hk2))
        rw [hnil, List.append_nil, if_pos (List.mem_cons_self _ _)]
      · have hknil : g k = [] := h0 k (List.mem_cons_self _ _) hkt
        rw [hknil, List.nil_append,
          ih hks (fun k2 h2 hne => h0 k2 (List.mem_cons_of_mem _ h2) hne)]
        have hiff : t ∈ k :: ks ↔ t ∈ ks := by
          rw [List.mem_cons]
          exact ⟨fun h2 => h2.resolve_left (fun he => absurd he.symm hkt), Or.inr⟩
        simp only [hiff]

/-- With distinct keys, the count of a predicate that is dead in every
chunk but `t`'s reduces to its count in the chunk of `t`. -/
theorem countP_flatMap_single_key (t : String) (keys : List String)
    (g : String → List EventRow) (p : EventRow → Bool) (hn : keys.Nodup)
    (ht : t ∈ keys) (h0 : ∀ k ∈ keys, k ≠ t → (g k).countP p = 0) :
    (keys.flatMap g).countP p = (g t).countP p := by
  induction keys with
  | nil => cases ht
  | cons k ks ih =>
      rw [List.flatMap_cons, List.countP_append]
      rcases List.nodup_cons.mp hn with ⟨hk, hks⟩
      by_cases hkt : k = t
      · subst hkt
        have hz : (ks.flatMap g).countP p = 0 := by
          rw [List.countP_eq_zero]
          intro a ha
          rcases List.mem_flatMap.mp ha with ⟨k2, hk2, haf⟩
          have : (g k2).countP p = 0 :=
            h0 k2 (List.mem_cons_of_mem _ hk2) (fun he => hk (he ▸ hk2))
          exact List.countP_eq_zero.mp this a haf
        rw [hz, Nat.add_zero]
      · have h1 : (g k).countP p = 0 := h0 k (List.mem_cons_self _ _) hkt
        have ht2 : t ∈ ks := by
          rcases List.mem_cons.mp ht with he | hm
          · exact absurd he.symm hkt
          · exact hm
        rw [h1, ih hks ht2 (fun k2 h2 hne => h0 k2 (List.mem_cons_of_mem _ h2) hne),
          Nat.zero_add]

/-- Membership in the sorted distinct group keys is type presence. -/
theorem mem_group_keys (t : String) (rows : List EventRow) :
    t ∈ group_keys rows ↔ ∃ r ∈ rows, r.type = t := by
  unfold group_keys
  rw [(List.perm_insertionSort _ _).mem_iff, List.mem_dedup, List.mem_map]

/-- The rows that `read_log` feeds into the groupby: the state of the
dataframe after the `start <= end` filter and the `(type, start)` sort. -/
def sorted_wf_rows (l : List EventRow) : List EventRow :=
  List.insertionSort rowLE (l.filter (fun r => decide (r.start ≤ r.stop)))

/-- The assembly tail of `read_log` written over `sorted_wf_rows`. -/
theorem read_log_assemble_eq (l : List EventRow) :
    read_log_assemble l =
      (group_keys (sorted_wf_rows l)).flatMap
        (fun t =>
          remove_overlaps t
            ((sorted_wf_rows l).filter (fun r => decide (r.type = t)))) :=
  rfl

/-- Rows surviving the well-formedness filter have `start <= end`. -/
theorem sorted_wf_rows_wf (l : List EventRow) :
    ∀ r ∈ sorted_wf_rows l, r.start ≤ r.stop := by
  intro r hr
  have hm : r ∈ l.filter (fun x => decide (x.start ≤ x.stop)) :=
    (List.perm_insertionSort _ _).mem_iff.mp hr
  exact of_decide_eq_true (List.mem_filter.mp hm).2

/-- The sorted rows are pairwise ordered by `(type, start)`. -/
theorem sorted_wf_rows_pairwise (l : List EventRow) :
    (sorted_wf_rows l).Pairwise rowLE :=
  List.sorted_insertionSort rowLE _

/-- The group keys are distinct. -/
theorem group_keys_nodup (l : List EventRow) : (group_keys l).Nodup :=
  (List.perm_insertionSort _ _).symm.nodup (List.nodup_dedup _)

/-- The group keys are strictly increasing. -/
theorem group_keys_strict (l : List EventRow) :
    (group_keys l).Pairwise (fun a b => str_lt a.data b.data = true) := by
  have hle : (group_keys l).Pairwise key_le := List.sorted_insertionSort _ _
  refine hle.imp₂ ?_ (group_keys_nodup l)
  intro a b hab hne
  by_cases h : str_lt a.data b.data = true
  · exact h
  · exact absurd (string_eq_of_data (str_lt_eq_of_not (Bool.not_eq_true _ ▸ h) hab)) hne

/-- Each category group of the sorted rows is sorted by start time. -/
theorem group_start_sorted (l : List EventRow) (t : String) :
    ((sorted_wf_rows l).filter (fun r => decide (r.type = t))).Pairwise
      (fun a b => a.start ≤ b.start) := by
  have hpw : ((sorted_wf_rows l).filter (fun r => decide (r.type = t))).Pairwise rowLE :=
    List.Pairwise.sublist (List.filter_sublist _) (sorted_wf_rows_pairwise l)
  refine hpw.imp_of_mem ?_
  intro a b ha hb hr
  have hat : a.type = t := of_decide_eq_true (List.mem_filter.mp ha).2
  have hbt : b.type = t := of_decide_eq_true (List.mem_filter.mp hb).2
  rcases hr with h | h
  · rw [hat, hbt, str_lt_irrefl] at h
    cases h
  · exact h.2

/-- A deduplicated category group is pairwise ordered by `(type, start)`. -/
theorem chunk_rowLE (l : List EventRow) (t : String) :
    (remove_overlaps t
        ((sorted_wf_rows l).filter (fun r => decide (r.type = t)))).Pairwise rowLE := by
  have hstart := remove_overlaps_start_sorted t _ (group_start_sorted l t)
  refine hstart.imp_of_mem ?_
  intro a b ha hb hs
  exact Or.inr ⟨(remove_overlaps_type t _ a ha).trans (remove_overlaps_type t _ b hb).symm, hs⟩

/-- A deduplicated category group has no same-category overlap. -/
theorem chunk_no_overlap (l : List EventRow) (t : String) :
    (remove_overlaps t
        ((sorted_wf_rows l).filter (fun r => decide (r.type = t)))).Pairwise
      (fun a b => a.type = b.type → a.stop ≤ b.start) := by
  have h := remove_overlaps_gap t
    ((sorted_wf_rows l).filter (fun r => decide (r.type = t)))
    (fun r hr => sorted_wf_rows_wf l r (List.mem_of_mem_filter hr))
  refine List.Pairwise.imp ?_ h
  intro a b h2
  exact fun _ => h2

/-- Filtering the assembled output to one category yields exactly that
category's deduplicated group. -/
theorem read_log_assemble_filter (l : List EventRow) (t : String) :
    (read_log_assemble l).filter (fun r => decide (r.type = t)) =
      remove_overlaps t
        ((sorted_wf_rows l).filter (fun r => decide (r.type = t))) := by
  rw [read_log_assemble_eq, filter_flatMap_chunks]
  have h0 : ∀ k ∈ group_keys (sorted_wf_rows l), k ≠ t →
      (remove_overlaps k
          ((sorted_wf_rows l).filter (fun r => decide (r.type = k)))).filter
        (fun r => decide (r.type = t)) = [] := by
    intro k hk hne
    rw [List.filter_eq_nil_iff]
    intro a ha h
    exact hne ((remove_overlaps_type k _ a ha).symm.trans (of_decide_eq_true h))
  rw [flatMap_single_key t _ _ (group_keys_nodup _) h0]
  by_cases hmem : t ∈ group_keys (sorted_wf_rows l)
  · rw [if_pos hmem]
    exact List.filter_eq_self.mpr
      (fun r hr => decide_eq_true (remove_overlaps_type t _ r hr))
  · rw [if_neg hmem]
    have hnil : (sorted_wf_rows l).filter (fun r => decide (r.type = t)) = [] := by
      rw [List.filter_eq_nil_iff]
      intro a ha h
      exact hmem ((mem_group_keys t _).mpr ⟨a, ha, of_decide_eq_true h⟩)
    rw [hnil]
    rfl

/-- C5: for every log content and read window, the output of `read_log`
is sorted by `(category, start)`, contains no two same-category events
where the later one's start precedes the earlier one's end, each
category's output is exactly the start-order scan keeping a row iff its
start is at least the end of the last kept row of that category, and the
first row of each category group survives (its category field, rewritten
to the group's name, is unchanged). -/
theorem claim5_read_invariants (rows : List EventRow) (ws we : Int)
    (cats : Option (List String)) (out : List EventRow)
    (hout : read_log (some rows) ws we cats = some out) :
    out.Pairwise rowLE ∧
    out.Pairwise (fun a b => a.type = b.type → a.stop ≤ b.start) ∧
    (∀ t, out.filter (fun r => decide (r.type = t)) =
      remove_overlaps t
        ((sorted_wf_rows (read_log_chunked rows ws we cats)).filter
          (fun r => decide (r.type = t)))) ∧
    ∀ t g0 grest,
      (sorted_wf_rows (read_log_chunked rows ws we cats)).filter
          (fun r => decide (r.type = t)) = g0 :: grest →
      g0 ∈ out := by
  have hout2 : out = read_log_assemble (read_log_chunked rows ws we cats) :=
    (Option.some.inj hout).symm
  subst hout2
  refine ⟨?_, ?_, ?_, ?_⟩
  · rw [read_log_assemble_eq]
    exact pairwise_flatMap_chunks rowLE _ _
      (fun k r hr => remove_overlaps_type k _ r hr) (group_keys_strict _)
      (fun k => chunk_rowLE _ k) (fun a b h => Or.inl h)
  · rw [read_log_assemble_eq]
    refine pairwise_flatMap_chunks _ _ _
      (fun k r hr => remove_overlaps_type k _ r hr) (group_keys_strict _)
      (fun k => chunk_no_overlap _ k) ?_
    intro a b hlt heq
    rw [heq, str_lt_irrefl] at hlt
    cases hlt
  · intro t
    exact read_log_assemble_filter _ t
  · intro t g0 grest hg
    have hfil := read_log_assemble_filter (read_log_chunked rows ws we cats) t
    rw [hg] at hfil
    have hg0 : g0 ∈ (sorted_wf_rows (read_log_chunked rows ws we cats)).filter
        (fun r => decide (r.type = t)) := by
      rw [hg]
      exact List.mem_cons_self _ _
    have hg0t : g0.type = t := of_decide_eq_true (List.mem_filter.mp hg0).2
    have hup : ({ g0 with type := t } : EventRow) = g0 := by
      rw [← hg0t]
    have hmem : g0 ∈ (read_log_assemble (read_log_chunked rows ws we cats)).filter
        (fun r => decide (r.type = t)) := by
      rw [hfil]
      simp only [remove_overlaps]
      rw [hup]
      exact List.mem_cons_self _ _
    exact List.mem_of_mem_filter hmem

/-- C5 witness: reading back a log holding `(0,5,water)` and the
overlapping `(3,7,water)` returns just `(0,5,water)`; the theorem's
sortedness and no-overlap invariants are instantiated on it. -/
theorem claim5_read_invariants_witness :
    ([⟨0, 5, "water"⟩] : List EventRow).Pairwise rowLE ∧
      ([⟨0, 5, "water"⟩] : List EventRow).Pairwise
        (fun a b => a.type = b.type → a.stop ≤ b.start) :=
  ⟨(claim5_read_invariants [⟨0, 5, "water"⟩, ⟨3, 7, "water"⟩] 0 10
      (some ["water"]) [⟨0, 5, "water"⟩] rfl).1,
    (claim5_read_invariants [⟨0, 5, "water"⟩, ⟨3, 7, "water"⟩] 0 10
      (some ["water"]) [⟨0, 5, "water"⟩] rfl).2.1⟩

/-- If every row ahead of `(S, E, t)` in the scan ends by `S`, the
scanning pass keeps `(S, E, t)`. -/
theorem remove_overlaps_go_keeps (t : String) (S E : Int) (l2 : List EventRow) :
    ∀ (xs : List EventRow) (pe : Int), pe ≤ S → (∀ x ∈ xs, x.stop ≤ S) →
      (⟨S, E, t⟩ : EventRow) ∈ remove_overlaps_go t pe (xs ++ ⟨S, E, t⟩ :: l2) := by
  intro xs
  induction xs with
  | nil =>
      intro pe hpe _
      simp only [List.nil_append, remove_overlaps_go]
      rw [if_pos hpe]
      exact List.mem_cons_self _ _
  | cons x xs ih =>
      intro pe hpe hxs
      simp only [List.cons_append, remove_overlaps_go]
      by_cases h : pe ≤ x.start
      · rw [if_pos h]
        exact List.mem_cons_of_mem _
          (ih x.stop (hxs x (List.mem_cons_self _ _))
            (fun y hy => hxs y (List.mem_cons_of_mem _ hy)))
      · rw [if_neg h]
        exact ih pe hpe (fun y hy => hxs y (List.mem_cons_of_mem _ hy))

/-- If every row before `(S, E, t)` in its group ends by `S`,
deduplication keeps `(S, E, t)`. -/
theorem remove_overlaps_keeps (t : String) (S E : Int)
    (l1 l2 : List EventRow) (h1 : ∀ x ∈ l1, x.stop ≤ S) :
    (⟨S, E, t⟩ : EventRow) ∈ remove_overlaps t (l1 ++ ⟨S, E, t⟩ :: l2) := by
  cases l1 with
  | nil =>
      simp only [List.nil_append, remove_overlaps]
      exact List.mem_cons_self _ _
  | cons x xs =>
      simp only [List.cons_append, remove_overlaps]
      exact List.mem_cons_of_mem _
        (remove_overlaps_go_keeps t S E l2 xs x.stop
          (h1 x (List.mem_cons_self _ _))
          (fun y hy => h1 y (List.mem_cons_of_mem _ hy)))

/-- C7: round-trip.  Appending `(S, E, C)` (with `S <= E`) to a log whose
prior same-category rows do not overlap `[S, E]`, then reading over a
window fully containing `[S, E]` with `C` in the category filter, yields
exactly one row equal to `(S, E, C)`. -/
theorem claim7_round_trip (prior : List EventRow) (S E : Int) (C : String)
    (ws we : Int) (cats : List String)
    (hSE : S ≤ E) (hws : ws ≤ S) (hwe : E ≤ we) (hC : C ∈ cats)
    (hprior : ∀ r ∈ prior, r.type = C → ¬(S ≤ r.stop ∧ r.start ≤ E))
    (out : List EventRow)
    (hout : read_log (some (append_log prior ⟨S, E, C⟩)) ws we (some cats) = some out) :
    out.countP (fun r => decide (r = (⟨S, E, C⟩ : EventRow))) = 1 := by
  have hout2 : out =
      read_log_assemble (read_log_chunked (append_log prior ⟨S, E, C⟩) ws we (some cats)) :=
    (Option.some.inj hout).symm
  subst hout2
  have hchunk : read_log_chunked (append_log prior ⟨S, E, C⟩) ws we (some cats) =
      read_log_chunked prior ws we (some cats) ++ [⟨S, E, C⟩] := by
    simp only [read_log_chunked, append_log, List.filter_append]
    congr 1
    have h1 : decide ((⟨S, E, C⟩ : EventRow).type ∈ cats) = true := decide_eq_true hC
    have h2 : decide (ws ≤ (⟨S, E, C⟩ : EventRow).stop) = true :=
      decide_eq_true (le_trans hws hSE)
    have h3 : decide ((⟨S, E, C⟩ : EventRow).start ≤ we) = true :=
      decide_eq_true (le_trans hSE hwe)
    simp [List.filter_cons, h1, h2, h3]
  have hwfl : (read_log_chunked (append_log prior ⟨S, E, C⟩) ws we (some cats)).filter
        (fun r => decide (r.start ≤ r.stop)) =
      (read_log_chunked prior ws we (some cats)).filter
        (fun r => decide (r.start ≤ r.stop)) ++ [⟨S, E, C⟩] := by
    rw [hchunk, List.filter_append]
    congr 1
    simp [List.filter_cons, decide_eq_true hSE]
  have hperm : List.Perm
      (sorted_wf_rows (read_log_chunked (append_log prior ⟨S, E, C⟩) ws we (some cats)))
      ((read_log_chunked prior ws we (some cats)).filter
          (fun r => decide (r.start ≤ r.stop)) ++ [⟨S, E, C⟩]) := by
    refine (List.perm_insertionSort rowLE
      ((read_log_chunked (append_log prior ⟨S, E, C⟩) ws we (some cats)).filter
        (fun r => decide (r.start ≤ r.stop)))).trans ?_
    rw [hwfl]
  -- facts about prior rows that survive chunking and well-formedness
  have hwfp : ∀ r ∈ (read_log_chunked prior ws we (some cats)).filter
      (fun r => decide (r.start ≤ r.stop)),
      r ∈ prior ∧ r.start ≤ r.stop := by
    intro r hr
    rcases List.mem_filter.mp hr with ⟨hrc, hwf⟩
    refine ⟨?_, of_decide_eq_true hwf⟩
    simp only [read_log_chunked] at hrc
    exact List.mem_of_mem_filter (List.mem_of_mem_filter hrc)
  have hCfacts : ∀ r ∈ (read_log_chunked prior ws we (some cats)).filter
      (fun r => decide (r.start ≤ r.stop)),
      r.type = C → r.stop < S ∨ E < r.start := by
    intro r hr hrt
    have h := hprior r (hwfp r hr).1 hrt
    rcases not_and_or.mp h with h1 | h1
    · exact Or.inl (not_le.mp h1)
    · exact Or.inr (not_le.mp h1)
  have hnew_sorted : (⟨S, E, C⟩ : EventRow) ∈
      sorted_wf_rows (read_log_chunked (append_log prior ⟨S, E, C⟩) ws we (some cats)) :=
    hperm.mem_iff.mpr (List.mem_append.mpr (Or.inr (List.mem_cons_self _ _)))
  -- the category-C group
  have hgC_cnt : ((sorted_wf_rows (read_log_chunked (append_log prior ⟨S, E, C⟩) ws we
        (some cats))).filter (fun r => decide (r.type = C))).countP
      (fun r => decide (r = (⟨S, E, C⟩ : EventRow))) = 1 := by
    rw [List.countP_filter, List.Perm.countP_eq _ hperm, List.countP_append]
    have hz : ((read_log_chunked prior ws we (some cats)).filter
        (fun r => decide (r.start ≤ r.stop))).countP
        (fun a => decide (a = (⟨S, E, C⟩ : EventRow)) && decide (a.type = C)) = 0 := by
      rw [List.countP_eq_zero]
      intro a ha hcontr
      rw [Bool.and_eq_true] at hcontr
      have ha_eq : a = (⟨S, E, C⟩ : EventRow) := of_decide_eq_true hcontr.1
      rcases hCfacts a ha (by rw [ha_eq]) with h2 | h2
      · rw [ha_eq] at h2
        exact absurd hSE (not_le.mpr h2)
      · rw [ha_eq] at h2
        exact absurd hSE (not_le.mpr h2)
    rw [hz]
    simp
  have hnew_gC : (⟨S, E, C⟩ : EventRow) ∈
      (sorted_wf_rows (read_log_chunked (append_log prior ⟨S, E, C⟩) ws we
        (some cats))).filter (fun r => decide (r.type = C)) :=
    List.mem_filter.mpr ⟨hnew_sorted, decide_eq_true rfl⟩
  obtain ⟨l1, l2, hsplit⟩ := List.append_of_mem hnew_gC
  -- the count forces the new row to occur exactly once
  have hcnt_split := hgC_cnt
  rw [hsplit, List.countP_append, List.countP_cons] at hcnt_split
  have hpnew : (decide ((⟨S, E, C⟩ : EventRow) = (⟨S, E, C⟩ : EventRow))) = true :=
    decide_eq_true rfl
  rw [hpnew, if_pos rfl] at hcnt_split
  have hl1_zero : l1.countP (fun r => decide (r = (⟨S, E, C⟩ : EventRow))) = 0 := by
    omega
  -- rows before the new one in its group end by S
  have hgC_pair : ((sorted_wf_rows (read_log_chunked (append_log prior ⟨S, E, C⟩) ws we
      (some cats))).filter (fun r => decide (r.type = C))).Pairwise rowLE :=
    List.Pairwise.sublist (List.filter_sublist _) (sorted_wf_rows_pairwise _)
  rw [hsplit] at hgC_pair
  rcases List.pairwise_append.mp hgC_pair with ⟨_, _, hcross⟩
  have hl1_stop : ∀ x ∈ l1, x.stop ≤ S := by
    intro x hx
    have hxgC : x ∈ (sorted_wf_rows (read_log_chunked (append_log prior ⟨S, E, C⟩) ws we
        (some cats))).filter (fun r => decide (r.type = C)) := by
      rw [hsplit]
      exact List.mem_append.mpr (Or.inl hx)
    have hxt : x.type = C := of_decide_eq_true (List.mem_filter.mp hxgC).2
    have hxnew : x ≠ (⟨S, E, C⟩ : EventRow) := by
      intro he
      have := List.countP_eq_zero.mp hl1_zero x hx
      exact this (decide_eq_true he)
    have hx_wfp : x ∈ (read_log_chunked prior ws we (some cats)).filter
        (fun r => decide (r.start ≤ r.stop)) := by
      have hx_sorted : x ∈ sorted_wf_rows (read_log_chunked (append_log prior ⟨S, E, C⟩)
          ws we (some cats)) := List.mem_of_mem_filter hxgC
      rcases List.mem_append.mp (hperm.mem_iff.mp hx_sorted) with h | h
      · exact h
      · rcases List.mem_cons.mp h with he | he
        · exact absurd he hxnew
        · cases he
    have hxle : x.start ≤ S := by
      rcases hcross x hx (⟨S, E, C⟩ : EventRow) (List.mem_cons_self _ _) with h | h
      · rw [hxt, str_lt_irrefl] at h
        cases h
      · exact h.2
    rcases hCfacts x hx_wfp hxt with h | h
    · exact le_of_lt h
    · exact absurd (lt_of_le_of_lt (le_trans hxle hSE) h) (lt_irrefl _)
  -- the new row survives deduplication
  have hchunk_mem : (⟨S, E, C⟩ : EventRow) ∈
      remove_overlaps C ((sorted_wf_rows (read_log_chunked (append_log prior ⟨S, E, C⟩)
        ws we (some cats))).filter (fun r => decide (r.type = C))) := by
    rw [hsplit]
    exact remove_overlaps_keeps C S E l1 l2 hl1_stop
  -- the deduplicated group holds the new row exactly once
  have hchunk_le : (remove_overlaps C ((sorted_wf_rows (read_log_chunked
      (append_log prior ⟨S, E, C⟩) ws we (some cats))).filter
        (fun r => decide (r.type = C)))).countP
      (fun r => decide (r = (⟨S, E, C⟩ : EventRow))) ≤ 1 := by
    have hsub := (remove_overlaps_sublist C ((sorted_wf_rows (read_log_chunked
      (append_log prior ⟨S, E, C⟩) ws we (some cats))).filter
        (fun r => decide (r.type = C)))).countP_le
      (fun r => decide (r = (⟨S, E, C⟩ : EventRow)))
    rw [List.countP_map] at hsub
    simp only [Function.comp_def] at hsub
    have hcongr : ((sorted_wf_rows (read_log_chunked (append_log prior ⟨S, E, C⟩) ws we
        (some cats))).filter (fun r => decide (r.type = C))).countP
        (fun r => decide ({ r with type := C } = (⟨S, E, C⟩ : EventRow))) =
        ((sorted_wf_rows (read_log_chunked (append_log prior ⟨S, E, C⟩) ws we
          (some cats))).filter (fun r => decide (r.type = C))).countP
        (fun r => decide (r = (⟨S, E, C⟩ : EventRow))) := by
      refine List.countP_congr ?_
      intro x hx
      have hxt : x.type = C := of_decide_eq_true (List.mem_filter.mp hx).2
      have hxu : ({ x with type := C } : EventRow) = x := by rw [← hxt]
      rw [hxu]
    rw [hcongr, hgC_cnt] at hsub
    exact hsub
  have hchunk_cnt : (remove_overlaps C ((sorted_wf_rows (read_log_chunked
      (append_log prior ⟨S, E, C⟩) ws we (some cats))).filter
        (fun r => decide (r.type = C)))).countP
      (fun r => decide (r = (⟨S, E, C⟩ : EventRow))) = 1 :=
    Nat.le_antisymm hchunk_le
      (List.countP_pos_iff.mpr ⟨_, hchunk_mem, decide_eq_true rfl⟩)
  -- assemble: only the C chunk can hold the new row
  rw [read_log_assemble_eq]
  rw [countP_flatMap_single_key C _ _ _ (group_keys_nodup _)
    ((mem_group_keys C _).mpr ⟨⟨S, E, C⟩, hnew_sorted, rfl⟩) ?_]
  · exact hchunk_cnt
  · intro k hk hne
    rw [List.countP_eq_zero]
    intro a ha hcontr
    have hat : a.type = k := remove_overlaps_type k _ a ha
    have ha_eq : a = (⟨S, E, C⟩ : EventRow) := of_decide_eq_true hcontr
    rw [ha_eq] at hat
    exact hne hat.symm

/-- C7 witness: appending `(0, 5, water)` to the empty log and reading it
back over `[0, 10]` with the `water` filter yields exactly one matching
row. -/
theorem claim7_round_trip_witness :
    ([⟨0, 5, "water"⟩] : List EventRow).countP
      (fun r => decide (r = (⟨0, 5, "water"⟩ : EventRow))) = 1 :=
  claim7_round_trip [] 0 5 "water" 0 10 ["water"] (by decide) (by decide)
    (by decide) (by decide) (fun r hr => absurd hr (List.not_mem_nil r))
    [⟨0, 5, "water"⟩] rfl

end TreeBot
